import Mathlib

/-
  Verification development for the binary serialization core
  (`utils::buffer_serializer` / `utils::buffer_deserializer` in
  src/emulator/serialization.hpp).

  Bytes are modelled as `Nat` values below 256; C++ `size_t` / `uint64_t`
  arithmetic is made explicit via `% 256` and the 8-byte little-endian
  encoding `u64Bytes`.
-/

namespace Sogen

/-- Serializer state: the owned growable byte buffer `buffer_` and the
    optional `break_offset_` of `buffer_serializer`. -/
structure Ser where
  buffer : List Nat
  breakOffset : Option Nat
deriving DecidableEq, Repr

/-- The error a serializer write can raise ("Break offset reached!"). -/
inductive SErr where
  | breakOffsetError
deriving DecidableEq, Repr

/-- Serializer computations: state passing with a C++-exception-like error
    channel. On error, the state at the throw point is returned unchanged
    (the C++ object stays alive, and the throw precedes any mutation). -/
def SM (α : Type) : Type := Ser → Except SErr α × Ser

def SM.pure (a : α) : SM α := fun s => (Except.ok a, s)

def SM.bind (m : SM α) (f : α → SM β) : SM β := fun s =>
  match m s with
  | (Except.ok a, s1) => f a s1
  | (Except.error e, s1) => (Except.error e, s1)

/-- Deserializer state: the borrowed byte view `buffer_` and the cursor
    `offset_` of `buffer_deserializer`. -/
structure De where
  buffer : List Nat
  offset : Nat
deriving DecidableEq, Repr

/-- The errors a deserializer read can raise: "Out of bounds read from byte
    buffer" and "Reading from serialized buffer mismatches written data!". -/
inductive DErr where
  | boundsError
  | framingError
deriving DecidableEq, Repr

/-- Deserializer computations, in the same exception-modelling style. -/
def DM (α : Type) : Type := De → Except DErr α × De

def DM.pure (a : α) : DM α := fun d => (Except.ok a, d)

def DM.bind (m : DM α) (f : α → DM β) : DM β := fun d =>
  match m d with
  | (Except.ok a, d1) => f a d1
  | (Except.error e, d1) => (Except.error e, d1)

/-- A wire frame: the marker byte (payload length mod 256, the low byte of
    the C++ `static_cast<uint8_t>(length)`) followed by the payload. -/
def frame (p : List Nat) : List Nat := (p.length % 256) :: p

/-- The break-offset condition of `buffer_serializer::write(const void*, size_t)`:
    `break_offset_ && buffer_.size() <= *break_offset_ &&
     buffer_.size() + length + check_size > *break_offset_` with `check_size = 1`. -/
def breakHit (s : Ser) (len : Nat) : Bool :=
  match s.breakOffset with
  | some bo => decide (s.buffer.length ≤ bo) && decide (s.buffer.length + len + 1 > bo)
  | none => false

/-- Models `buffer_serializer::write(const void* buffer, size_t length)`: check the
    break offset, then append the marker byte and the raw payload bytes. -/
def write (p : List Nat) : SM Unit := fun s =>
  if breakHit s p.length then (Except.error SErr.breakOffsetError, s)
  else (Except.ok (), { s with buffer := s.buffer ++ frame p })

/-- Models `buffer_serializer::write(const buffer_serializer& object)`: appends the
    other serializer's whole buffer as one frame. -/
def writeSerializer (other : Ser) : SM Unit := write other.buffer

/-- Models `buffer_serializer::set_break_offset`. -/
def set_break_offset (s : Ser) (bo : Nat) : Ser := { s with breakOffset := some bo }

/-- Models `buffer_serializer::get_buffer`. -/
def get_buffer (s : Ser) : List Nat := s.buffer

/-- Little-endian byte decomposition, `k` bytes (the memory image memcpy'd
    out of an unsigned little-endian integer). -/
def leBytes : Nat → Nat → List Nat
  | 0, _ => []
  | k + 1, n => n % 256 :: leBytes k (n / 256)

/-- Value of a little-endian byte run (the integer memcpy reassembles). -/
def leVal : List Nat → Nat
  | [] => 0
  | b :: bs => b + 256 * leVal bs

/-- The 8 bytes of a `uint64_t` as stored in memory (little-endian). -/
def u64Bytes (n : Nat) : List Nat := leBytes 8 n

/-- Models `buffer_serializer::write<bool>`: a single byte, 1 or 0. -/
def writeBool (b : Bool) : SM Unit := write [if b then 1 else 0]

/-- Models `buffer_serializer::write<uint64_t>` (trivially copyable path):
    one frame holding the 8-byte little-endian image. -/
def writeU64 (n : Nat) : SM Unit := write (u64Bytes n)

/-- Sequential writes of a list of elements (the range-for loops of
    `write_span` / `write_list` / `write_map`). -/
def writeN (wr : α → SM Unit) : List α → SM Unit
  | [] => SM.pure ()
  | x :: xs => SM.bind (wr x) (fun _ => writeN wr xs)

/-- Models `buffer_deserializer::read_data(size_t length)`: bounds check
    (`offset_ + (length + check_size) > buffer_.size()`), then marker-byte
    check (`buffer_[offset_] != uint8_t(length)`), then advance the cursor
    past the marker and the payload and return the payload view. -/
def read_data (len : Nat) : DM (List Nat) := fun d =>
  if d.offset + (len + 1) > d.buffer.length then
    (Except.error DErr.boundsError, d)
  else
    let tail := d.buffer.drop d.offset
    if tail.headD 0 ≠ len % 256 then (Except.error DErr.framingError, d)
    else (Except.ok ((tail.drop 1).take len), { d with offset := d.offset + (1 + len) })

/-- Models `buffer_deserializer::read<bool>`: `read<uint8_t>() != 0`. -/
def readBool : DM Bool :=
  DM.bind (read_data 1) (fun bs => DM.pure (decide (bs.headD 0 ≠ 0)))

/-- Models `buffer_deserializer::read<uint64_t>` (trivially copyable path):
    one 8-byte frame, reassembled little-endian. -/
def readU64 : DM Nat :=
  DM.bind (read_data 8) (fun bs => DM.pure (leVal bs))

/-- Performs `n` sequential reads (the loops of `read_vector` / `read_list` /
    `read_map` / `read_string`), elements in encounter order. -/
def readN (rd : DM α) : Nat → DM (List α)
  | 0 => DM.pure []
  | n + 1 => DM.bind rd (fun x => DM.bind (readN rd n) (fun xs => DM.pure (x :: xs)))

/-- Models `buffer_deserializer::get_remaining_size`. -/
def get_remaining_size (d : De) : Nat := d.buffer.length - d.offset

/-- Models `buffer_deserializer::get_remaining_data`: `read_data(get_remaining_size())`. -/
def get_remaining_data : DM (List Nat) := fun d => read_data (get_remaining_size d) d

/-- Models `buffer_deserializer::get_offset`. -/
def get_offset (d : De) : Nat := d.offset

/-- Type descriptors for the supported serializable types: trivially
    copyable blobs of a fixed byte size, `bool`, strings of a fixed
    character width, `std::optional`, `std::vector`, `std::list`, maps,
    and map entries (a key/value pair). -/
inductive Ty where
  | prim (size : Nat)
  | boolT
  | strT (charSize : Nat)
  | opt (t : Ty)
  | vecT (t : Ty)
  | lstT (t : Ty)
  | mapT (k v : Ty)
deriving DecidableEq, Repr

/-- Values of the supported types. A trivially copyable object is its byte
    image; a string is its list of character byte images; a map is its
    entry list in iteration order, each entry a `pair`. -/
inductive Value where
  | prim (bytes : List Nat)
  | boolV (b : Bool)
  | strV (chars : List (List Nat))
  | optNone
  | optSome (v : Value)
  | pair (a b : Value)
  | vec (vs : List Value)
  | lst (vs : List Value)
  | mapV (es : List Value)

/-- Holds when `v` is a well-formed value of type `t`: byte images have the declared
    size and hold bytes, and container sizes fit in a `size_t`/`uint64_t`
    (they always do in C++, where sizes are machine words). -/
def wellTyped : Ty → Value → Bool
  | .prim n, .prim bs => bs.length == n && bs.all (· < 256)
  | .boolT, .boolV _ => true
  | .strT c, .strV cs =>
      cs.all (fun ch => ch.length == c && ch.all (· < 256)) && decide (cs.length < 2 ^ 64)
  | .opt _, .optNone => true
  | .opt t, .optSome v => wellTyped t v
  | .vecT t, .vec vs => vs.all (fun v => wellTyped t v) && decide (vs.length < 2 ^ 64)
  | .lstT t, .lst vs => vs.all (fun v => wellTyped t v) && decide (vs.length < 2 ^ 64)
  | .mapT k w, .mapV es =>
      es.all (fun e =>
        match e with
        | .pair a b => wellTyped k a && wellTyped w b
        | _ => false) && decide (es.length < 2 ^ 64)
  | _, _ => false

/-- The typed write `buffer_serializer::write<T>` together with the derived
    writers `write_optional`, `write_vector`, `write_list`, `write_string`,
    `write_map`, dispatched on the type descriptor exactly as the C++
    template dispatch does. A value of the wrong shape for `t` corresponds
    to a C++ compile error and is modelled as a no-op. -/
def writeValue : Ty → Value → SM Unit
  | .prim _, .prim bs => write bs
  | .boolT, .boolV b => writeBool b
  | .strT _, .strV cs => SM.bind (writeU64 cs.length) (fun _ => writeN write cs)
  | .opt _, .optNone => writeBool false
  | .opt t, .optSome v => SM.bind (writeBool true) (fun _ => writeValue t v)
  | .vecT t, .vec vs => SM.bind (writeU64 vs.length) (fun _ => writeN (writeValue t) vs)
  | .lstT t, .lst vs => SM.bind (writeU64 vs.length) (fun _ => writeN (writeValue t) vs)
  | .mapT k w, .mapV es =>
      SM.bind (writeU64 es.length)
        (fun _ => writeN (fun e =>
          match e with
          | .pair a b => SM.bind (writeValue k a) (fun _ => writeValue w b)
          | _ => SM.pure ()) es)
  | _, _ => SM.pure ()

/-- The byte encoding produced by `writeValue` (closed form). -/
def encodeN (f : α → List Nat) : List α → List Nat
  | [] => []
  | x :: xs => f x ++ encodeN f xs

/-- Closed form of the bytes `writeValue t v` appends. -/
def encode : Ty → Value → List Nat
  | .prim _, .prim bs => frame bs
  | .boolT, .boolV b => frame [if b then 1 else 0]
  | .strT _, .strV cs => frame (u64Bytes cs.length) ++ encodeN frame cs
  | .opt _, .optNone => frame [0]
  | .opt t, .optSome v => frame [1] ++ encode t v
  | .vecT t, .vec vs => frame (u64Bytes vs.length) ++ encodeN (encode t) vs
  | .lstT t, .lst vs => frame (u64Bytes vs.length) ++ encodeN (encode t) vs
  | .mapT k w, .mapV es =>
      frame (u64Bytes es.length) ++
        encodeN (fun e =>
          match e with
          | .pair a b => encode k a ++ encode w b
          | _ => []) es
  | _, _ => []

/-- The construct-and-fill read `buffer_deserializer::read<T>()` together
    with the derived readers `read_optional`, `read_vector`, `read_list`,
    `read_string`, `read_map`, dispatched on the type descriptor. -/
def readValue : Ty → DM Value
  | .prim n => DM.bind (read_data n) (fun bs => DM.pure (.prim bs))
  | .boolT => DM.bind readBool (fun b => DM.pure (.boolV b))
  | .strT c =>
      DM.bind readU64 (fun n =>
        DM.bind (readN (read_data c) n) (fun cs => DM.pure (.strV cs)))
  | .opt t =>
      DM.bind readBool (fun b =>
        if b then DM.bind (readValue t) (fun v => DM.pure (.optSome v))
        else DM.pure .optNone)
  | .vecT t =>
      DM.bind readU64 (fun n =>
        DM.bind (readN (readValue t) n) (fun vs => DM.pure (.vec vs)))
  | .lstT t =>
      DM.bind readU64 (fun n =>
        DM.bind (readN (readValue t) n) (fun vs => DM.pure (.lst vs)))
  | .mapT k w =>
      DM.bind readU64 (fun n =>
        DM.bind
          (readN (DM.bind (readValue k) (fun a =>
            DM.bind (readValue w) (fun b => DM.pure (.pair a b)))) n)
          (fun es => DM.pure (.mapV es)))

/-- Models `buffer_serializer::get_diff`: index scan over the common length for the
    first differing byte; then the shorter length if the sizes differ. -/
def diffFrom : List Nat → List Nat → Nat → Option Nat
  | x :: xs, y :: ys, i => if x ≠ y then some i else diffFrom xs ys (i + 1)
  | [], [], _ => none
  | [], _ :: _, i => some i
  | _ :: _, [], i => some i

/-- Models `buffer_serializer::get_diff(other)` on the two buffers. -/
def get_diff (b1 b2 : List Nat) : Option Nat := diffFrom b1 b2 0

/-- Compile-time capabilities of a type `T` at `construct_object<T>`:
    whether `T(buffer_deserializer&)` exists, whether `T` is default
    constructible, and the `typeid(T).name()` identity used as factory key. -/
structure TypeTraits where
  hasDeserializerCtor : Bool
  hasDefaultCtor : Bool
  name : String
deriving DecidableEq, Repr

/-- How `buffer_deserializer::construct_object<T>` obtains its instance,
    or the failure "Object construction failed. Missing factory for type". -/
inductive ConstructOutcome where
  | viaDeserializerCtor
  | viaDefaultCtor
  | viaFactory
  | failed (typeName : String)
deriving DecidableEq, Repr

/-- Models `buffer_deserializer::register_factory<T>`: record a factory under the
    type identity (the keys of the `factories_` map). -/
def register_factory (factories : List String) (tyName : String) : List String :=
  tyName :: factories

/-- Models `buffer_deserializer::construct_object<T>`: the `if constexpr` chain —
    deserializer constructor, else default construction, else the factory
    registry, else the construction error naming the type. -/
def construct_object (tr : TypeTraits) (factories : List String) : ConstructOutcome :=
  if tr.hasDeserializerCtor then .viaDeserializerCtor
  else if tr.hasDefaultCtor then .viaDefaultCtor
  else if factories.contains tr.name then .viaFactory
  else .failed tr.name

/-- Specification predicate: on a serializer with no break offset, the
    computation succeeds and appends exactly `out` to any buffer. -/
def emits (m : SM Unit) (out : List Nat) : Prop :=
  ∀ buf, m ⟨buf, none⟩ = (Except.ok (), ⟨buf ++ out, none⟩)

/-- Specification predicate: placed at the start of `consumed` inside a
    larger buffer, the computation succeeds with result `a` and advances the
    cursor exactly past `consumed`. -/
def runsTo (m : DM α) (consumed : List Nat) (a : α) : Prop :=
  ∀ pre rest, m ⟨pre ++ consumed ++ rest, pre.length⟩ =
    (Except.ok a, ⟨pre ++ consumed ++ rest, pre.length + consumed.length⟩)

/-- Specification predicate: the computation only ever appends to the
    buffer, whether it succeeds or fails. -/
def Grows (m : SM α) : Prop :=
  ∀ s, ∃ tl, (m s).2.buffer = s.buffer ++ tl

end Sogen

namespace Sogen

theorem leBytes_length (k n : Nat) : (leBytes k n).length = k := by
  induction k generalizing n with
  | zero => simp [leBytes]
  | succ k ih => simp [leBytes, ih]

theorem leVal_leBytes (k n : Nat) : leVal (leBytes k n) = n % 256 ^ k := by
  induction k generalizing n with
  | zero => simp [leBytes, leVal, Nat.mod_one]
  | succ k ih =>
      have h : n % (256 * 256 ^ k) = n % 256 + 256 * (n / 256 % 256 ^ k) := Nat.mod_mul
      simp [leBytes, leVal, ih, pow_succ]
      rw [mul_comm (256 ^ k) 256, h]

theorem leVal_u64Bytes (n : Nat) (h : n < 2 ^ 64) : leVal (u64Bytes n) = n := by
  have h8 : (256 : Nat) ^ 8 = 2 ^ 64 := by norm_num
  rw [u64Bytes, leVal_leBytes, h8, Nat.mod_eq_of_lt h]

theorem frame_length (p : List Nat) : (frame p).length = p.length + 1 := by
  simp [frame]

theorem write_none (p buf : List Nat) :
    write p ⟨buf, none⟩ = (Except.ok (), ⟨buf ++ frame p, none⟩) := by
  simp [write, breakHit]

theorem write_emits (p : List Nat) : emits (write p) (frame p) := fun buf => write_none p buf

theorem emits_bind {m : SM Unit} {k : SM Unit} {o1 o2 : List Nat}
    (h1 : emits m o1) (h2 : emits k o2) :
    emits (SM.bind m fun _ => k) (o1 ++ o2) := by
  intro buf
  simp [SM.bind, h1 buf, h2 (buf ++ o1), List.append_assoc]

theorem emits_pure : emits (SM.pure ()) [] := by
  intro buf
  simp [SM.pure]

theorem writeN_emits {wr : α → SM Unit} {f : α → List Nat} (xs : List α)
    (h : ∀ x ∈ xs, emits (wr x) (f x)) :
    emits (writeN wr xs) (encodeN f xs) := by
  induction xs with
  | nil => simpa [writeN, encodeN] using emits_pure
  | cons x xs ih =>
      have hx : emits (wr x) (f x) := h x (List.mem_cons_self x xs)
      have hxs : emits (writeN wr xs) (encodeN f xs) :=
        ih (fun y hy => h y (List.mem_cons_of_mem x hy))
      simpa [writeN, encodeN] using emits_bind hx hxs

theorem writeBool_emits (b : Bool) : emits (writeBool b) (frame [if b then 1 else 0]) :=
  write_emits _

theorem writeU64_emits (n : Nat) : emits (writeU64 n) (frame (u64Bytes n)) :=
  write_emits _

theorem writeValue_emits (t : Ty) : ∀ v, emits (writeValue t v) (encode t v) := by
  induction t with
  | prim n =>
      intro v
      cases v <;> simp [writeValue, encode] <;> first
        | exact write_emits _
        | exact emits_pure
  | boolT =>
      intro v
      cases v <;> simp [writeValue, encode] <;> first
        | exact writeBool_emits _
        | exact emits_pure
  | strT c =>
      intro v
      cases v with
      | strV cs =>
          have h := emits_bind (writeU64_emits cs.length)
            (writeN_emits cs (fun x _ => write_emits x))
          simpa [writeValue, encode] using h
      | prim bs => exact fun buf => by simp [writeValue, encode, SM.pure]
      | boolV b => exact fun buf => by simp [writeValue, encode, SM.pure]
      | optNone => exact fun buf => by simp [writeValue, encode, SM.pure]
      | optSome v => exact fun buf => by simp [writeValue, encode, SM.pure]
      | pair a b => exact fun buf => by simp [writeValue, encode, SM.pure]
      | vec vs => exact fun buf => by simp [writeValue, encode, SM.pure]
      | lst vs => exact fun buf => by simp [writeValue, encode, SM.pure]
      | mapV es => exact fun buf => by simp [writeValue, encode, SM.pure]
  | opt t ih =>
      intro v
      cases v with
      | optNone => simpa [writeValue, encode] using writeBool_emits false
      | optSome v =>
          have h := emits_bind (writeBool_emits true) (ih v)
          simpa [writeValue, encode] using h
      | prim bs => exact fun buf => by simp [writeValue, encode, SM.pure]
      | boolV b => exact fun buf => by simp [writeValue, encode, SM.pure]
      | strV cs => exact fun buf => by simp [writeValue, encode, SM.pure]
      | pair a b => exact fun buf => by simp [writeValue, encode, SM.pure]
      | vec vs => exact fun buf => by simp [writeValue, encode, SM.pure]
      | lst vs => exact fun buf => by simp [writeValue, encode, SM.pure]
      | mapV es => exact fun buf => by simp [writeValue, encode, SM.pure]
  | vecT t ih =>
      intro v
      cases v with
      | vec vs =>
          have h := emits_bind (writeU64_emits vs.length)
            (writeN_emits vs (fun x _ => ih x))
          simpa [writeValue, encode] using h
      | prim bs => exact fun buf => by simp [writeValue, encode, SM.pure]
      | boolV b => exact fun buf => by simp [writeValue, encode, SM.pure]
      | strV cs => exact fun buf => by simp [writeValue, encode, SM.pure]
      | optNone => exact fun buf => by simp [writeValue, encode, SM.pure]
      | optSome v => exact fun buf => by simp [writeValue, encode, SM.pure]
      | pair a b => exact fun buf => by simp [writeValue, encode, SM.pure]
      | lst vs => exact fun buf => by simp [writeValue, encode, SM.pure]
      | mapV es => exact fun buf => by simp [writeValue, encode, SM.pure]
  | lstT t ih =>
      intro v
      cases v with
      | lst vs =>
          have h := emits_bind (writeU64_emits vs.length)
            (writeN_emits vs (fun x _ => ih x))
          simpa [writeValue, encode] using h
      | prim bs => exact fun buf => by simp [writeValue, encode, SM.pure]
      | boolV b => exact fun buf => by simp [writeValue, encode, SM.pure]
      | strV cs => exact fun buf => by simp [writeValue, encode, SM.pure]
      | optNone => exact fun buf => by simp [writeValue, encode, SM.pure]
      | optSome v => exact fun buf => by simp [writeValue, encode, SM.pure]
      | pair a b => exact fun buf => by simp [writeValue, encode, SM.pure]
      | vec vs => exact fun buf => by simp [writeValue, encode, SM.pure]
      | mapV es => exact fun buf => by simp [writeValue, encode, SM.pure]
  | mapT k w ihk ihw =>
      intro v
      cases v with
      | mapV es =>
          have hentry : ∀ e ∈ es,
              emits
                ((fun e =>
                  match e with
                  | Value.pair a b => SM.bind (writeValue k a) (fun _ => writeValue w b)
                  | _ => SM.pure ()) e)
                ((fun e =>
                  match e with
                  | Value.pair a b => encode k a ++ encode w b
                  | _ => []) e) := by
            intro e _
            cases e with
            | pair a b => exact emits_bind (ihk a) (ihw b)
            | prim bs => exact emits_pure
            | boolV b => exact emits_pure
            | strV cs => exact emits_pure
            | optNone => exact emits_pure
            | optSome v => exact emits_pure
            | vec vs => exact emits_pure
            | lst vs => exact emits_pure
            | mapV es => exact emits_pure
          have h := emits_bind (writeU64_emits es.length) (writeN_emits es hentry)
          simpa [writeValue, encode] using h
      | prim bs => exact fun buf => by simp [writeValue, encode, SM.pure]
      | boolV b => exact fun buf => by simp [writeValue, encode, SM.pure]
      | strV cs => exact fun buf => by simp [writeValue, encode, SM.pure]
      | optNone => exact fun buf => by simp [writeValue, encode, SM.pure]
      | optSome v => exact fun buf => by simp [writeValue, encode, SM.pure]
      | pair a b => exact fun buf => by simp [writeValue, encode, SM.pure]
      | vec vs => exact fun buf => by simp [writeValue, encode, SM.pure]
      | lst vs => exact fun buf => by simp [writeValue, encode, SM.pure]

theorem runsTo_pure (a : α) : runsTo (DM.pure a) [] a := by
  intro pre rest
  simp [DM.pure]

theorem runsTo_bind {m : DM α} (f : α → DM β) {c1 c2 : List Nat} {a : α} {b : β}
    (h1 : runsTo m c1 a) (h2 : runsTo (f a) c2 b) :
    runsTo (DM.bind m f) (c1 ++ c2) b := by
  intro pre rest
  have e1 := h1 pre (c2 ++ rest)
  have e2 := h2 (pre ++ c1) rest
  simp only [List.append_assoc, List.length_append] at e1 e2 ⊢
  simp only [DM.bind, e1, e2, Nat.add_assoc]

theorem runsTo_map {m : DM α} {c : List Nat} {a : α} (g : α → β) (h : runsTo m c a) :
    runsTo (DM.bind m (fun x => DM.pure (g x))) c (g a) := by
  have := runsTo_bind (fun x => DM.pure (g x)) h (runsTo_pure (g a))
  simpa using this

theorem runsTo_read_data (p : List Nat) : runsTo (read_data p.length) (frame p) p := by
  intro pre rest
  have hb : ¬ (pre.length + (p.length + 1) > (pre ++ frame p ++ rest).length) := by
    simp only [frame, List.length_append, List.length_cons, gt_iff_lt, not_lt]
    omega
  have hdrop : (pre ++ frame p ++ rest).drop pre.length = (p.length % 256) :: (p ++ rest) := by
    rw [List.append_assoc, List.drop_left pre (frame p ++ rest)]
    simp [frame]
  simp only [read_data]
  rw [if_neg hb]
  simp only [hdrop, List.headD_cons, ne_eq, not_true_eq_false, if_false, ite_false,
    List.drop_succ_cons, List.drop_zero, List.take_left]
  simp [frame, Nat.add_comm]

theorem runsTo_readBool (b : Bool) : runsTo readBool (frame [if b then 1 else 0]) b := by
  have h := runsTo_read_data [if b then 1 else 0]
  simp only [List.length_cons, List.length_nil, Nat.zero_add] at h
  have h2 := runsTo_bind (fun bs => DM.pure (decide (bs.headD 0 ≠ 0))) h
    (runsTo_pure (decide (List.headD [if b then 1 else 0] 0 ≠ 0)))
  cases b <;> simpa [readBool] using h2

theorem u64Bytes_length (n : Nat) : (u64Bytes n).length = 8 := leBytes_length 8 n

theorem runsTo_readU64 (n : Nat) (h : n < 2 ^ 64) :
    runsTo readU64 (frame (u64Bytes n)) n := by
  have h1 := runsTo_read_data (u64Bytes n)
  rw [u64Bytes_length] at h1
  have h2 := runsTo_bind (fun bs => DM.pure (leVal bs)) h1
    (runsTo_pure (leVal (u64Bytes n)))
  rw [leVal_u64Bytes n h] at h2
  simpa [readU64] using h2

theorem runsTo_readN {rd : DM α} {f : α → List Nat} (xs : List α)
    (h : ∀ x ∈ xs, runsTo rd (f x) x) :
    runsTo (readN rd xs.length) (encodeN f xs) xs := by
  induction xs with
  | nil => simpa [readN, encodeN] using runsTo_pure ([] : List α)
  | cons x xs ih =>
      have hx := h x (List.mem_cons_self x xs)
      have hxs := ih (fun y hy => h y (List.mem_cons_of_mem x hy))
      have h2 := runsTo_map (fun xs' => x :: xs') hxs
      have h3 := runsTo_bind
        (fun x' => DM.bind (readN rd xs.length) (fun xs' => DM.pure (x' :: xs'))) hx h2
      simpa [readN, encodeN] using h3

theorem runsTo_readValue : ∀ (t : Ty) (v : Value), wellTyped t v = true →
    runsTo (readValue t) (encode t v) v := by
  intro t
  induction t with
  | prim n =>
      intro v hv
      cases v <;> simp [wellTyped] at hv
      case prim bs =>
        obtain ⟨hlen, -⟩ := hv
        subst hlen
        have h := runsTo_map Value.prim (runsTo_read_data bs)
        simpa [readValue, encode] using h
  | boolT =>
      intro v hv
      cases v <;> simp [wellTyped] at hv
      case boolV b =>
        have h := runsTo_map Value.boolV (runsTo_readBool b)
        simpa [readValue, encode] using h
  | strT c =>
      intro v hv
      cases v <;> simp [wellTyped] at hv
      case strV cs =>
        obtain ⟨hch, hlt⟩ := hv
        have h1 := runsTo_readU64 cs.length hlt
        have hchars : ∀ ch ∈ cs, runsTo (read_data c) (frame ch) ch := by
          intro ch hmem
          have hl : ch.length = c := (hch ch hmem).1
          have := runsTo_read_data ch
          rwa [hl] at this
        have h2 := runsTo_readN cs hchars
        have h3 := runsTo_map Value.strV h2
        have h4 := runsTo_bind
          (fun n => DM.bind (readN (read_data c) n) (fun cs' => DM.pure (Value.strV cs')))
          h1 h3
        simpa [readValue, encode] using h4
  | opt t ih =>
      intro v hv
      cases v <;> simp [wellTyped] at hv
      case optNone =>
        have h := runsTo_bind
          (fun b => if b then DM.bind (readValue t) (fun v => DM.pure (Value.optSome v))
            else DM.pure Value.optNone)
          (runsTo_readBool false) (runsTo_pure Value.optNone)
        simpa [readValue, encode] using h
      case optSome v =>
        have h := runsTo_bind
          (fun b => if b then DM.bind (readValue t) (fun v => DM.pure (Value.optSome v))
            else DM.pure Value.optNone)
          (runsTo_readBool true) (runsTo_map Value.optSome (ih v hv))
        simpa [readValue, encode] using h
  | vecT t ih =>
      intro v hv
      cases v <;> simp [wellTyped] at hv
      case vec vs =>
        obtain ⟨hall, hlt⟩ := hv
        have h1 := runsTo_readU64 vs.length hlt
        have h2 := runsTo_readN vs (fun x hx => ih x (hall x hx))
        have h3 := runsTo_map Value.vec h2
        have h4 := runsTo_bind
          (fun n => DM.bind (readN (readValue t) n) (fun vs' => DM.pure (Value.vec vs')))
          h1 h3
        simpa [readValue, encode] using h4
  | lstT t ih =>
      intro v hv
      cases v <;> simp [wellTyped] at hv
      case lst vs =>
        obtain ⟨hall, hlt⟩ := hv
        have h1 := runsTo_readU64 vs.length hlt
        have h2 := runsTo_readN vs (fun x hx => ih x (hall x hx))
        have h3 := runsTo_map Value.lst h2
        have h4 := runsTo_bind
          (fun n => DM.bind (readN (readValue t) n) (fun vs' => DM.pure (Value.lst vs')))
          h1 h3
        simpa [readValue, encode] using h4
  | mapT k w ihk ihw =>
      intro v hv
      cases v <;> simp [wellTyped] at hv
      case mapV es =>
        obtain ⟨hall, hlt⟩ := hv
        have h1 := runsTo_readU64 es.length hlt
        have hentry : ∀ e ∈ es,
            runsTo
              (DM.bind (readValue k) (fun a =>
                DM.bind (readValue w) (fun b => DM.pure (Value.pair a b))))
              ((fun e =>
                match e with
                | Value.pair a b => encode k a ++ encode w b
                | _ => []) e) e := by
          intro e hmem
          have he := hall e hmem
          cases e <;> simp at he
          case pair a b =>
            obtain ⟨ha, hb⟩ := he
            have hinner := runsTo_bind
              (fun b' => DM.pure (Value.pair a b'))
              (ihw b hb) (runsTo_pure (Value.pair a b))
            have houter := runsTo_bind
              (fun a' => DM.bind (readValue w) (fun b' => DM.pure (Value.pair a' b')))
              (ihk a ha) hinner
            simpa using houter
        have h2 := runsTo_readN es hentry
        have h3 := runsTo_map Value.mapV h2
        have h4 := runsTo_bind
          (fun n =>
            DM.bind
              (readN (DM.bind (readValue k) (fun a =>
                DM.bind (readValue w) (fun b => DM.pure (Value.pair a b)))) n)
              (fun es' => DM.pure (Value.mapV es')))
          h1 h3
        simpa [readValue, encode] using h4

theorem decode_encode (t : Ty) (v : Value) (h : wellTyped t v = true) :
    (readValue t ⟨(writeValue t v ⟨[], none⟩).2.buffer, 0⟩).1 = Except.ok v := by
  have hw := writeValue_emits t v []
  have hb : (writeValue t v ⟨[], none⟩).2.buffer = encode t v := by rw [hw]; simp
  rw [hb]
  have hr := runsTo_readValue t v h [] []
  simp only [List.nil_append, List.append_nil, List.length_nil, Nat.zero_add] at hr
  rw [hr]

theorem write_grows (p : List Nat) : Grows (write p) := by
  intro s
  by_cases h : breakHit s p.length = true
  · exact ⟨[], by simp [write, h]⟩
  · exact ⟨frame p, by simp [write, h]⟩

theorem grows_pure (a : α) : Grows (SM.pure a) := fun s => ⟨[], by simp [SM.pure]⟩

theorem grows_bind {m : SM α} {f : α → SM β} (hm : Grows m) (hf : ∀ a, Grows (f a)) :
    Grows (SM.bind m f) := by
  intro s
  obtain ⟨t1, h1⟩ := hm s
  rcases hres : m s with ⟨r, s1⟩
  rw [hres] at h1
  simp only at h1
  cases r with
  | ok a =>
      obtain ⟨t2, h2⟩ := hf a s1
      refine ⟨t1 ++ t2, ?_⟩
      simp only [SM.bind, hres]
      rw [h2, h1, List.append_assoc]
  | error e =>
      refine ⟨t1, ?_⟩
      simp only [SM.bind, hres]
      exact h1

theorem writeN_grows {wr : α → SM Unit} (xs : List α) (h : ∀ x ∈ xs, Grows (wr x)) :
    Grows (writeN wr xs) := by
  induction xs with
  | nil => exact grows_pure ()
  | cons x xs ih =>
      exact grows_bind (h x (List.mem_cons_self x xs))
        (fun _ => ih (fun y hy => h y (List.mem_cons_of_mem x hy)))

theorem writeValue_grows : ∀ (t : Ty) (v : Value), Grows (writeValue t v) := by
  intro t
  induction t with
  | prim n =>
      intro v
      cases v <;> first | exact write_grows _ | exact grows_pure ()
  | boolT =>
      intro v
      cases v <;> first | exact write_grows _ | exact grows_pure ()
  | strT c =>
      intro v
      cases v <;> first
        | exact grows_bind (write_grows _)
            (fun _ => writeN_grows _ (fun x _ => write_grows x))
        | exact grows_pure ()
  | opt t ih =>
      intro v
      cases v <;> first
        | exact grows_bind (write_grows _) (fun _ => ih _)
        | exact write_grows _
        | exact grows_pure ()
  | vecT t ih =>
      intro v
      cases v <;> first
        | exact grows_bind (write_grows _) (fun _ => writeN_grows _ (fun x _ => ih x))
        | exact grows_pure ()
  | lstT t ih =>
      intro v
      cases v <;> first
        | exact grows_bind (write_grows _) (fun _ => writeN_grows _ (fun x _ => ih x))
        | exact grows_pure ()
  | mapT k w ihk ihw =>
      intro v
      cases v with
      | mapV es =>
          refine grows_bind (write_grows _) (fun _ => writeN_grows es ?_)
          intro e _
          cases e <;> first
            | exact grows_bind (ihk _) (fun _ => ihw _)
            | exact grows_pure ()
      | prim bs => exact grows_pure ()
      | boolV b => exact grows_pure ()
      | strV cs => exact grows_pure ()
      | optNone => exact grows_pure ()
      | optSome v => exact grows_pure ()
      | pair a b => exact grows_pure ()
      | vec vs => exact grows_pure ()
      | lst vs => exact grows_pure ()

theorem diffFrom_none (xs : List Nat) : ∀ (ys : List Nat) (i : Nat),
    diffFrom xs ys i = none ↔ xs = ys := by
  induction xs with
  | nil =>
      intro ys i
      cases ys <;> simp [diffFrom]
  | cons x xs ih =>
      intro ys i
      cases ys with
      | nil => simp [diffFrom]
      | cons y ys =>
          by_cases hxy : x = y
          · subst hxy
            simp [diffFrom, ih]
          · simp [diffFrom, hxy]

theorem diffFrom_shift (xs : List Nat) : ∀ (ys : List Nat) (k : Nat),
    diffFrom xs ys k = (diffFrom xs ys 0).map (fun j => k + j) := by
  induction xs with
  | nil =>
      intro ys k
      cases ys <;> simp [diffFrom]
  | cons x xs ih =>
      intro ys k
      cases ys with
      | nil => simp [diffFrom]
      | cons y ys =>
          by_cases hxy : x = y
          · subst hxy
            simp only [diffFrom, ne_eq, not_true_eq_false, if_false, ite_false]
            rw [ih ys (k + 1), ih ys 1]
            cases diffFrom xs ys 0 <;> simp [Nat.add_assoc]
          · simp [diffFrom, hxy]

theorem get_diff_none_iff (b1 b2 : List Nat) : get_diff b1 b2 = none ↔ b1 = b2 :=
  diffFrom_none b1 b2 0

theorem get_diff_some (b1 : List Nat) : ∀ (b2 : List Nat) (i : Nat),
    get_diff b1 b2 = some i →
    (∀ j, j < i → b1.getD j 0 = b2.getD j 0) ∧
    ((i < b1.length ∧ i < b2.length ∧ b1.getD i 0 ≠ b2.getD i 0) ∨
      (i = min b1.length b2.length ∧ b1.length ≠ b2.length)) := by
  induction b1 with
  | nil =>
      intro b2 i h
      cases b2 with
      | nil => simp [get_diff, diffFrom] at h
      | cons y ys =>
          simp [get_diff, diffFrom] at h
          subst h
          exact ⟨fun j hj => absurd hj (Nat.not_lt_zero j), Or.inr (by simp)⟩
  | cons x xs ih =>
      intro b2 i h
      cases b2 with
      | nil =>
          simp [get_diff, diffFrom] at h
          subst h
          exact ⟨fun j hj => absurd hj (Nat.not_lt_zero j), Or.inr (by simp)⟩
      | cons y ys =>
          by_cases hxy : x = y
          · subst hxy
            simp only [get_diff, diffFrom, ne_eq, not_true_eq_false, if_false, ite_false] at h
            rw [diffFrom_shift xs ys 1] at h
            cases hd : diffFrom xs ys 0 with
            | none => rw [hd] at h; simp at h
            | some i' =>
                rw [hd] at h
                simp at h
                obtain ⟨hpre, hrest⟩ := ih ys i' hd
                cases h
                constructor
                · intro j hj
                  cases j with
                  | zero => rfl
                  | succ j' =>
                      simp only [List.getD_cons_succ]
                      exact hpre j' (by omega)
                · rcases hrest with ⟨h1, h2, h3⟩ | ⟨h1, h2⟩
                  · left
                    refine ⟨by simp only [List.length_cons]; omega,
                      by simp only [List.length_cons]; omega, ?_⟩
                    simpa [Nat.add_comm 1 i', List.getD_cons_succ] using h3
                  · right
                    constructor
                    · simp only [List.length_cons]
                      omega
                    · simp only [List.length_cons]
                      omega
          · simp only [get_diff, diffFrom, ne_eq, hxy, not_false_eq_true, if_true, ite_true,
              Option.some_inj] at h
            subst h
            refine ⟨fun j hj => absurd hj (Nat.not_lt_zero j), Or.inl ?_⟩
            exact ⟨by simp, by simp, by simpa [List.getD] using hxy⟩

theorem get_diff_shorter_of_ne (b1 : List Nat) : ∀ (b2 : List Nat),
    (∀ j, j < min b1.length b2.length → b1.getD j 0 = b2.getD j 0) →
    b1.length ≠ b2.length →
    get_diff b1 b2 = some (min b1.length b2.length) := by
  induction b1 with
  | nil =>
      intro b2 heq hne
      cases b2 with
      | nil => simp at hne
      | cons y ys => simp [get_diff, diffFrom]
  | cons x xs ih =>
      intro b2 heq hne
      cases b2 with
      | nil => simp [get_diff, diffFrom]
      | cons y ys =>
          have hxy : x = y := by
            have := heq 0 (by simp only [List.length_cons]; omega)
            simpa [List.getD] using this
          subst hxy
          have hih := ih ys
            (fun j hj => by
              have := heq (j + 1) (by simp at hj ⊢; omega)
              simpa [List.getD_cons_succ] using this)
            (by simpa using hne)
          simp only [get_diff, diffFrom, ne_eq, not_true_eq_false, if_false, ite_false]
          rw [diffFrom_shift xs ys 1,
            show diffFrom xs ys 0 = some (min xs.length ys.length) from hih]
          simp only [Option.map_some', Option.some_inj, List.length_cons]
          omega

/-- C1: Round trip — writing a well-formed value of any supported type
    (trivially copyable, bool, string, optional, vector, list, map) with the
    typed write and reading it back with the mirrored typed read from a
    decoder over the resulting buffer succeeds and yields the same value. -/
theorem c1_round_trip (t : Ty) (v : Value) (h : wellTyped t v = true) :
    (writeValue t v ⟨[], none⟩).1 = Except.ok () ∧
    (readValue t ⟨(writeValue t v ⟨[], none⟩).2.buffer, 0⟩).1 = Except.ok v := by
  refine ⟨?_, decode_encode t v h⟩
  rw [writeValue_emits t v []]

/-- Witness for C1 at a concrete map value. -/
theorem c1_round_trip_witness :
    wellTyped (Ty.mapT (Ty.prim 1) (Ty.strT 1))
      (Value.mapV [Value.pair (Value.prim [3]) (Value.strV [[97]])]) = true ∧
    ((writeValue (Ty.mapT (Ty.prim 1) (Ty.strT 1))
        (Value.mapV [Value.pair (Value.prim [3]) (Value.strV [[97]])]) ⟨[], none⟩).1 =
      Except.ok () ∧
      (readValue (Ty.mapT (Ty.prim 1) (Ty.strT 1))
        ⟨(writeValue (Ty.mapT (Ty.prim 1) (Ty.strT 1))
            (Value.mapV [Value.pair (Value.prim [3]) (Value.strV [[97]])]) ⟨[], none⟩).2.buffer,
         0⟩).1 =
        Except.ok (Value.mapV [Value.pair (Value.prim [3]) (Value.strV [[97]])])) :=
  ⟨by decide, c1_round_trip _ _ (by decide)⟩

/-- C2: the claim says `get_remaining_data` succeeds and returns the
    remaining bytes; in the code it calls `read_data(get_remaining_size())`,
    whose bounds check `offset_ + (length + 1) > buffer_.size()` is then
    always true, so it raises the out-of-bounds error on every decoder
    state — the function can never succeed. -/
theorem c2_get_remaining_data_always_out_of_bounds (d : De) :
    get_remaining_data d = (Except.error DErr.boundsError, d) := by
  have h : d.offset + (get_remaining_size d + 1) > d.buffer.length := by
    simp only [get_remaining_size]
    omega
  simp [get_remaining_data, read_data, h]

/-- Counterexample for C3: on a buffer whose marker byte mismatches AND
    which is too short for the payload, the code raises the bounds error,
    not the framing error the claim predicts. -/
theorem c3_counterexample :
    (read_data 3 ⟨[5], 0⟩).1 = Except.error DErr.boundsError ∧
    (read_data 3 ⟨[5], 0⟩).1 ≠ Except.error DErr.framingError := by
  constructor
  · rfl
  · intro h
    simp [read_data] at h

/-- C3 (amended): `read_data(length)` first verifies that the marker byte
    plus `length` payload bytes fit in the remaining buffer, raising the
    bounds error otherwise; only then does it validate the marker byte,
    raising the framing error on mismatch. On a mismatching-and-too-short
    buffer the bounds error is the one raised. -/
theorem c3_read_data_check_order (len : Nat) (d : De) :
    (d.offset + (len + 1) > d.buffer.length →
      read_data len d = (Except.error DErr.boundsError, d)) ∧
    (d.offset + (len + 1) ≤ d.buffer.length →
      (d.buffer.drop d.offset).headD 0 ≠ len % 256 →
      read_data len d = (Except.error DErr.framingError, d)) := by
  constructor
  · intro h
    simp [read_data, h]
  · intro h1 h2
    have hb : ¬ (d.offset + (len + 1) > d.buffer.length) := by omega
    simp at h2
    simp [read_data, hb, h2]

/-- Witness for the amended C3: a bounds failure and a framing failure. -/
theorem c3_read_data_check_order_witness :
    read_data 3 ⟨[1, 2], 0⟩ = (Except.error DErr.boundsError, ⟨[1, 2], 0⟩) ∧
    read_data 2 ⟨[7, 1, 2], 0⟩ = (Except.error DErr.framingError, ⟨[7, 1, 2], 0⟩) :=
  ⟨(c3_read_data_check_order 3 ⟨[1, 2], 0⟩).1 (by decide),
   (c3_read_data_check_order 2 ⟨[7, 1, 2], 0⟩).2 (by decide) (by decide)⟩

/-- C4: with a break offset `B` and a buffer of size at most `B`, a write
    whose completion (marker byte plus payload) would exceed `B` fails with
    the break-offset error leaving the buffer untouched; a write whose
    completion lands exactly at `B` succeeds. -/
theorem c4_break_offset (p : List Nat) (s : Ser) (B : Nat)
    (hbo : s.breakOffset = some B) (hsz : s.buffer.length ≤ B) :
    (s.buffer.length + p.length + 1 > B →
      write p s = (Except.error SErr.breakOffsetError, s)) ∧
    (s.buffer.length + p.length + 1 = B →
      write p s = (Except.ok (), ⟨s.buffer ++ frame p, some B⟩)) := by
  constructor
  · intro h
    have hb : breakHit s p.length = true := by
      unfold breakHit
      rw [hbo]
      simp only [Bool.and_eq_true, decide_eq_true_eq]
      exact ⟨hsz, h⟩
    simp [write, hb]
  · intro h
    have hb : breakHit s p.length = false := by
      unfold breakHit
      rw [hbo]
      simp only [Bool.and_eq_false_iff, decide_eq_false_iff_not]
      right
      omega
    simp [write, hb, hbo]

/-- Witness for C4: break offset 4 over a 1-byte buffer — writing 3 payload
    bytes fails and leaves the state unchanged, writing 2 lands exactly at
    offset 4 and succeeds. -/
theorem c4_break_offset_witness :
    write [9, 9, 9] ⟨[0], some 4⟩ = (Except.error SErr.breakOffsetError, ⟨[0], some 4⟩) ∧
    write [9, 9] ⟨[0], some 4⟩ = (Except.ok (), ⟨[0] ++ frame [9, 9], some 4⟩) :=
  ⟨(c4_break_offset [9, 9, 9] ⟨[0], some 4⟩ 4 rfl (by decide)).1 (by decide),
   (c4_break_offset [9, 9] ⟨[0], some 4⟩ 4 rfl (by decide)).2 (by decide)⟩

/-- C5: on a frame written for a payload `p` — changing the marker byte to
    any byte value other than `p.length mod 256` makes `read_data` raise the
    framing error; truncating the bytes after the marker below the declared
    payload length makes it raise the bounds error. -/
theorem c5_framing_detection (p : List Nat) (m : Nat) :
    (m < 256 → m ≠ p.length % 256 →
      read_data p.length ⟨m :: p, 0⟩ = (Except.error DErr.framingError, ⟨m :: p, 0⟩)) ∧
    (∀ q : List Nat, q.length < p.length →
      read_data p.length ⟨(p.length % 256) :: q, 0⟩ =
        (Except.error DErr.boundsError, ⟨(p.length % 256) :: q, 0⟩)) := by
  constructor
  · intro _ hm
    have hb : ¬ (0 + (p.length + 1) > (m :: p).length) := by
      simp only [List.length_cons]
      omega
    simp [read_data, hb, hm]
  · intro q hq
    have hb : 0 + (p.length + 1) > ((p.length % 256) :: q).length := by
      simp only [List.length_cons]
      omega
    simp [read_data, hb, hq]

/-- Witness for C5: marker 9 on a 2-byte payload gives the framing error;
    a 2-byte frame truncated to one payload byte gives the bounds error. -/
theorem c5_framing_detection_witness :
    read_data 2 ⟨[9, 1, 2], 0⟩ = (Except.error DErr.framingError, ⟨[9, 1, 2], 0⟩) ∧
    read_data 2 ⟨[2, 1], 0⟩ = (Except.error DErr.boundsError, ⟨[2, 1], 0⟩) :=
  ⟨(c5_framing_detection [1, 2] 9).1 (by decide) (by decide),
   (c5_framing_detection [1, 2] 9).2 [1] (by decide)⟩

/-- C6: `write_optional` on an absent value emits exactly the one-byte
    presence frame `[0x01][0x00]`; on a present value it emits `[0x01][0x01]`
    followed by the value's own frames (for `optional<int32>` holding 7:
    `[1,1,4,7,0,0,0]`); `read_optional` restores presence and value. -/
theorem c6_optional (t : Ty) :
    (∀ buf, writeValue (Ty.opt t) Value.optNone ⟨buf, none⟩ =
      (Except.ok (), ⟨buf ++ [1, 0], none⟩)) ∧
    (∀ v buf, writeValue (Ty.opt t) (Value.optSome v) ⟨buf, none⟩ =
      (Except.ok (), ⟨buf ++ [1, 1] ++ encode t v, none⟩)) ∧
    encode (Ty.opt (Ty.prim 4)) (Value.optSome (Value.prim [7, 0, 0, 0])) =
      [1, 1, 4, 7, 0, 0, 0] ∧
    (∀ v, wellTyped (Ty.opt t) v = true →
      (readValue (Ty.opt t) ⟨(writeValue (Ty.opt t) v ⟨[], none⟩).2.buffer, 0⟩).1 =
        Except.ok v) := by
  refine ⟨?_, ?_, by decide, fun v h => decode_encode (Ty.opt t) v h⟩
  · intro buf
    have h := writeValue_emits (Ty.opt t) Value.optNone buf
    simpa [encode, frame] using h
  · intro v buf
    have h := writeValue_emits (Ty.opt t) (Value.optSome v) buf
    simpa [encode, frame, List.append_assoc] using h

/-- Witness for C6 at `optional<int32>`. -/
theorem c6_optional_witness :
    writeValue (Ty.opt (Ty.prim 4)) Value.optNone ⟨[], none⟩ =
      (Except.ok (), ⟨[1, 0], none⟩) ∧
    (readValue (Ty.opt (Ty.prim 4))
      ⟨(writeValue (Ty.opt (Ty.prim 4)) (Value.optSome (Value.prim [7, 0, 0, 0]))
          ⟨[], none⟩).2.buffer, 0⟩).1 =
      Except.ok (Value.optSome (Value.prim [7, 0, 0, 0])) :=
  ⟨(c6_optional (Ty.prim 4)).1 [],
   (c6_optional (Ty.prim 4)).2.2.2 (Value.optSome (Value.prim [7, 0, 0, 0])) (by decide)⟩

/-- C7: `get_diff` returns the smallest differing offset; if the buffers
    agree on the common length but the sizes differ it returns the shorter
    length; it returns none exactly on byte-identical buffers; and on the
    encodings of "abc" and "abd" it returns offset 14, the payload byte of
    the final character. -/
theorem c7_get_diff :
    (∀ b1 b2 : List Nat, get_diff b1 b2 = none ↔ b1 = b2) ∧
    (∀ (b1 b2 : List Nat) (i : Nat), get_diff b1 b2 = some i →
      (∀ j, j < i → b1.getD j 0 = b2.getD j 0) ∧
      ((i < b1.length ∧ i < b2.length ∧ b1.getD i 0 ≠ b2.getD i 0) ∨
        (i = min b1.length b2.length ∧ b1.length ≠ b2.length))) ∧
    (∀ b1 b2 : List Nat,
      (∀ j, j < min b1.length b2.length → b1.getD j 0 = b2.getD j 0) →
      b1.length ≠ b2.length →
      get_diff b1 b2 = some (min b1.length b2.length)) ∧
    get_diff
      (writeValue (Ty.strT 1) (Value.strV [[97], [98], [99]]) ⟨[], none⟩).2.buffer
      (writeValue (Ty.strT 1) (Value.strV [[97], [98], [100]]) ⟨[], none⟩).2.buffer =
      some 14 :=
  ⟨get_diff_none_iff, get_diff_some, get_diff_shorter_of_ne, by decide⟩

/-- Witness for C7 at concrete buffers. -/
theorem c7_get_diff_witness :
    get_diff [1, 2] [1, 2] = none ∧
    ((∀ j, j < 1 → List.getD [3, 4] j 0 = List.getD [3, 5] j 0) ∧
      ((1 < 2 ∧ 1 < 2 ∧ List.getD [3, 4] 1 0 ≠ List.getD [3, 5] 1 0) ∨
        (1 = min 2 2 ∧ 2 ≠ 2))) ∧
    get_diff [9] [9, 7] = some 1 :=
  ⟨(c7_get_diff.1 [1, 2] [1, 2]).mpr rfl,
   c7_get_diff.2.1 [3, 4] [3, 5] 1 (by decide),
   c7_get_diff.2.2.1 [9] [9, 7] (by decide) (by decide)⟩

/-- C8: `construct_object<T>` tries, in order: the deserializer-reference
    constructor, default construction, then the factory registered under the
    type identity; with none of the three it fails naming the missing type,
    and the factory is consulted only when neither constructor exists. -/
theorem c8_construct_object (tr : TypeTraits) (fs : List String) :
    (tr.hasDeserializerCtor = true →
      construct_object tr fs = ConstructOutcome.viaDeserializerCtor) ∧
    (tr.hasDeserializerCtor = false → tr.hasDefaultCtor = true →
      construct_object tr fs = ConstructOutcome.viaDefaultCtor) ∧
    (tr.hasDeserializerCtor = false → tr.hasDefaultCtor = false →
      fs.contains tr.name = true →
      construct_object tr fs = ConstructOutcome.viaFactory) ∧
    (tr.hasDeserializerCtor = false → tr.hasDefaultCtor = false →
      fs.contains tr.name = false →
      construct_object tr fs = ConstructOutcome.failed tr.name) ∧
    (construct_object tr fs = ConstructOutcome.viaFactory →
      tr.hasDeserializerCtor = false ∧ tr.hasDefaultCtor = false) := by
  obtain ⟨c1, c2, nm⟩ := tr
  cases c1 <;> cases c2 <;>
    by_cases hc : fs.contains nm = true <;>
    simp_all [construct_object]

/-- Witness for C8: one concrete instance per dispatch outcome. -/
theorem c8_construct_object_witness :
    construct_object ⟨true, false, "A"⟩ [] = ConstructOutcome.viaDeserializerCtor ∧
    construct_object ⟨false, true, "B"⟩ [] = ConstructOutcome.viaDefaultCtor ∧
    construct_object ⟨false, false, "C"⟩ ["C"] = ConstructOutcome.viaFactory ∧
    construct_object ⟨false, false, "D"⟩ [] = ConstructOutcome.failed "D" :=
  ⟨(c8_construct_object ⟨true, false, "A"⟩ []).1 rfl,
   (c8_construct_object ⟨false, true, "B"⟩ []).2.1 rfl rfl,
   (c8_construct_object ⟨false, false, "C"⟩ ["C"]).2.2.1 rfl rfl (by decide),
   (c8_construct_object ⟨false, false, "D"⟩ []).2.2.2.1 rfl rfl (by decide)⟩

/-- C9: append-only invariant — the primitive write, the serializer
    embedding, and every typed/derived write leave the previous buffer as a
    prefix of the resulting buffer, whether they complete or fail. -/
theorem c9_append_only :
    (∀ (p : List Nat) (s : Ser), ∃ tl, (write p s).2.buffer = s.buffer ++ tl) ∧
    (∀ (other s : Ser), ∃ tl, (writeSerializer other s).2.buffer = s.buffer ++ tl) ∧
    (∀ (t : Ty) (v : Value) (s : Ser), ∃ tl, (writeValue t v s).2.buffer = s.buffer ++ tl) :=
  ⟨fun p => write_grows p,
   fun other => write_grows other.buffer,
   fun t v => writeValue_grows t v⟩

/-- C10: once the buffer is strictly past the break offset (reachable via
    `set_break_offset` after data was written), every write succeeds and
    appends normally — the break check only applies while the buffer size is
    at most the break offset. -/
theorem c10_break_offset_inactive (p : List Nat) (s : Ser) (B : Nat)
    (hbo : s.breakOffset = some B) (hsz : s.buffer.length > B) :
    write p s = (Except.ok (), ⟨s.buffer ++ frame p, some B⟩) ∧
    (s.buffer ++ frame p).length > B := by
  have hb : breakHit s p.length = false := by
    unfold breakHit
    rw [hbo]
    simp only [Bool.and_eq_false_iff, decide_eq_false_iff_not]
    left
    omega
  constructor
  · simp [write, hb, hbo]
  · simp only [List.length_append]
    omega

/-- Witness for C10: a break offset of 2 set after 3 bytes were written
    never fires again. -/
theorem c10_break_offset_inactive_witness :
    write [7] (set_break_offset ⟨[1, 2, 3], none⟩ 2) =
      (Except.ok (), ⟨[1, 2, 3] ++ frame [7], some 2⟩) :=
  (c10_break_offset_inactive [7] (set_break_offset ⟨[1, 2, 3], none⟩ 2) 2 rfl (by decide)).1

end Sogen
